import Mathlib

/-!
Shallow embedding of `src/main.ts` of the obsidian-copy-embed-code plugin.

JavaScript strings are modelled as `List Char`.  Host builtins used by the
code (`decodeURIComponent`, `String.prototype.split/endsWith/startsWith`,
the two regular expressions, DOM traversal, the clipboard and the menu
popup) are modelled explicitly below; the plugin's own functions keep
their source names (`captureImageInfo`, `generateEmbedCode`,
`resolveImageFile`, `extractFilenameFromSrc`, `copyEmbedCode`,
`addMenuItemIfImage`, `injectIntoExistingMenu`).
-/

/-- Model of the JavaScript word-character class from the regexes in
`main.ts` lines 199 and 203: ASCII letters, digits and underscore. -/
def isWordChar (c : Char) : Bool :=
  c.isAlpha || c.isDigit || c == '_'

/-- Characters admitted by the class written in the fallback regex at
`main.ts` line 203: everything except a slash, a backslash and a
question mark. -/
def isTokenChar (c : Char) : Bool :=
  !(c == '/' || c == '\\' || c == '?')

/-- JavaScript line terminators, which the dot of a regex never matches. -/
def isLineTerm (c : Char) : Bool :=
  c == '\n' || c == '\r' || c == (Char.ofNat 0x2028) || c == (Char.ofNat 0x2029)

/-- Value of one hexadecimal digit, as read by `decodeURIComponent`. -/
def hexDigitVal (c : Char) : Option Nat :=
  if '0' ≤ c ∧ c ≤ '9' then some (c.toNat - ('0').toNat)
  else if 'a' ≤ c ∧ c ≤ 'f' then some (c.toNat - ('a').toNat + 10)
  else if 'A' ≤ c ∧ c ≤ 'F' then some (c.toNat - ('A').toNat + 10)
  else none

/-- First stage of the `decodeURIComponent` model: each `%XX` escape
becomes a byte (`Sum.inl`), every other character passes through
(`Sum.inr`).  A `%` not followed by two hexadecimal digits makes the
whole decode fail, as the JavaScript builtin throws `URIError`. -/
def pctTokens : List Char → Option (List (Nat ⊕ Char))
  | [] => some []
  | '%' :: c1 :: c2 :: rest =>
    match hexDigitVal c1, hexDigitVal c2 with
    | some h1, some h2 => (pctTokens rest).map (fun ts => Sum.inl (h1 * 16 + h2) :: ts)
    | _, _ => none
  | ['%'] => none
  | ['%', _] => none
  | c :: rest => (pctTokens rest).map (fun ts => Sum.inr c :: ts)

/-- UTF-8 continuation byte test used by the `decodeURIComponent` model. -/
def contByte (b : Nat) : Bool :=
  decide (0x80 ≤ b) && decide (b ≤ 0xBF)

/-- Second stage of the `decodeURIComponent` model: runs of escape bytes
are decoded as strict UTF-8 (overlong forms and surrogates rejected, as
the JavaScript builtin throws on them); plain characters pass through. -/
def decodeTokens : List (Nat ⊕ Char) → Option (List Char)
  | [] => some []
  | Sum.inr c :: rest => (decodeTokens rest).map (fun cs => c :: cs)
  | Sum.inl b :: rest =>
    if b < 0x80 then
      (decodeTokens rest).map (fun cs => Char.ofNat b :: cs)
    else if decide (0xC2 ≤ b) && decide (b ≤ 0xDF) then
      match rest with
      | Sum.inl b2 :: rest2 =>
        if contByte b2 then
          (decodeTokens rest2).map (fun cs =>
            Char.ofNat ((b - 0xC0) * 0x40 + (b2 - 0x80)) :: cs)
        else none
      | _ => none
    else if decide (0xE0 ≤ b) && decide (b ≤ 0xEF) then
      match rest with
      | Sum.inl b2 :: Sum.inl b3 :: rest3 =>
        if contByte b2 && contByte b3
            && (b != 0xE0 || decide (0xA0 ≤ b2))
            && (b != 0xED || decide (b2 ≤ 0x9F)) then
          (decodeTokens rest3).map (fun cs =>
            Char.ofNat ((b - 0xE0) * 0x1000 + (b2 - 0x80) * 0x40 + (b3 - 0x80)) :: cs)
        else none
      | _ => none
    else if decide (0xF0 ≤ b) && decide (b ≤ 0xF4) then
      match rest with
      | Sum.inl b2 :: Sum.inl b3 :: Sum.inl b4 :: rest4 =>
        if contByte b2 && contByte b3 && contByte b4
            && (b != 0xF0 || decide (0x90 ≤ b2))
            && (b != 0xF4 || decide (b2 ≤ 0x8F)) then
          (decodeTokens rest4).map (fun cs =>
            Char.ofNat ((b - 0xF0) * 0x40000 + (b2 - 0x80) * 0x1000
              + (b3 - 0x80) * 0x40 + (b4 - 0x80)) :: cs)
        else none
      | _ => none
    else none

/-- Model of the JavaScript builtin `decodeURIComponent`; `none` models a
thrown `URIError`. -/
def decodeURIComponent (s : List Char) : Option (List Char) :=
  (pctTokens s).bind decodeTokens

/-- Model of the test `/\.\w+$/.test s` at `main.ts` line 199: the string
ends in a dot followed by one or more word characters. -/
def hasWordExtension (s : List Char) : Bool :=
  let rev := s.reverse
  !(rev.takeWhile isWordChar).isEmpty
    && ((rev.dropWhile isWordChar).head? == some '.')

/-- Whether a maximal run of token characters can be the group captured
by the fallback regex `([^/\\?]+\.\w+)` at `main.ts` line 203: it must
end in a dot followed by one or more word characters, with at least one
character before that dot. -/
def fallbackTokenOk (run : List Char) : Bool :=
  let rev := run.reverse
  !(rev.takeWhile isWordChar).isEmpty
    && ((rev.dropWhile isWordChar).head? == some '.')
    && !((rev.dropWhile isWordChar).drop 1).isEmpty

/-- Attempted match of the fallback regex `([^/\\?]+\.\w+)(?:\?|$)` at
one start position: the maximal run of token characters from here must
be a valid captured token and must be followed by a question mark or by
the end of the string. -/
def fallbackMatchAt (l : List Char) : Option (List Char) :=
  let run := l.takeWhile isTokenChar
  let rest := l.drop run.length
  if fallbackTokenOk run && (rest.isEmpty || rest.head? == some '?') then
    some run
  else none

/-- Model of `src.match(/([^/\\?]+\.\w+)(?:\?|$)/)` at `main.ts` line 203:
the capture of the leftmost match, scanning start positions left to
right. -/
def jsFallbackMatch : List Char → Option (List Char)
  | [] => none
  | c :: rest =>
    match fallbackMatchAt (c :: rest) with
    | some m => some m
    | none => jsFallbackMatch rest

/-- Embedding of `extractFilenameFromSrc` (`main.ts` lines 187-210):
URL-decode, cut at the first question mark, split on slashes, keep the
last segment when it is non-empty and carries a word-character
extension; when decoding throws, fall back to the single regex match on
the raw string. -/
def extractFilenameFromSrc (src : List Char) : Option (List Char) :=
  match decodeURIComponent src with
  | some decoded0 =>
    let decoded := decoded0.takeWhile (· ≠ '?')
    let segments := decoded.splitOn '/'
    match segments.getLast? with
    | some lastSegment =>
      if !lastSegment.isEmpty && hasWordExtension lastSegment then
        some lastSegment
      else none
    | none => none
  | none => jsFallbackMatch src

/-- Attempted match of the regex `app:\/\/[^\/]+\/(.+?)(?:\?|$)` from
`main.ts` line 226 at one start position.  The authority is the maximal
non-slash run; the lazily captured group extends to just before the
first later question mark, or to the end of the string, and the dot of
the regex cannot cross a line terminator. -/
def appUrlMatchAt (l : List Char) : Option (List Char) :=
  if (("app://".toList).isPrefixOf l) then
    let after := l.drop 6
    let auth := after.takeWhile (· ≠ '/')
    if auth.isEmpty then none
    else
      match after.drop auth.length with
      | '/' :: rest =>
        if rest.isEmpty then none
        else
          let k := 1 + ((rest.drop 1).takeWhile (· ≠ '?')).length
          let cap := rest.take k
          if cap.all (fun c => !isLineTerm c) then some cap else none
      | _ => none
  else none

/-- Model of `decodedPath.match(/app:\/\/[^\/]+\/(.+?)(?:\?|$)/)` at
`main.ts` line 226: capture of the leftmost match. -/
def appUrlMatchList : List Char → Option (List Char)
  | [] => none
  | c :: rest =>
    match appUrlMatchAt (c :: rest) with
    | some m => some m
    | none => appUrlMatchList rest

/-- Vault file as the code uses it: a full relative path and a short
display name (`TFile.path` and `TFile.name` in the host API). -/
structure TFile where
  path : List Char
  name : List Char
deriving DecidableEq

/-- Lines 217-223 of `main.ts`: URL-decode the source, keeping the raw
string when decoding throws. -/
def decodeOrRaw (src : List Char) : List Char :=
  match decodeURIComponent src with
  | some d => d
  | none => src

/-- Lines 226-229 of `main.ts`: when the internal `app://` URL pattern
matches (with a non-empty capture), keep only the captured path. -/
def stripAppUrl (p : List Char) : List Char :=
  match appUrlMatchList p with
  | some cap => if cap.isEmpty then p else cap
  | none => p

/-- Lines 231-234 of `main.ts`: drop everything from the first question
mark onward. -/
def stripQuery (p : List Char) : List Char :=
  p.takeWhile (· ≠ '?')

/-- Embedding of `resolveImageFile` (`main.ts` lines 216-256).  The
vault's file enumeration (`this.app.vault.getFiles()`) is the explicit
argument `allFiles`. -/
def resolveImageFile (src : List Char) (allFiles : List TFile) : Option TFile :=
  let decodedPath := stripQuery (stripAppUrl (decodeOrRaw src))
  match allFiles.find? (fun file =>
      file.path.isSuffixOf decodedPath || file.path == decodedPath) with
  | some file => some file
  | none =>
    match extractFilenameFromSrc src with
    | some filename =>
      if filename.isEmpty then none
      else allFiles.find? (fun file => file.name == filename)
    | none => none

/-- Embedding of `generateEmbedCode` (`main.ts` lines 164-182). -/
def generateEmbedCode (src : List Char) (isExternal : Bool)
    (allFiles : List TFile) : Option (List Char) :=
  if isExternal then
    some (("![](".toList) ++ src ++ (")".toList))
  else
    match resolveImageFile src allFiles with
    | some imageFile => some (("![[".toList) ++ imageFile.name ++ ("]]".toList))
    | none =>
      match extractFilenameFromSrc src with
      | some fallbackName => some (("![[".toList) ++ fallbackName ++ ("]]".toList))
      | none => none

/-- Observable effects of one `copyEmbedCode` call: what is written to
the clipboard (if anything) and the notice text shown to the user. -/
structure CopyOutcome where
  clipboard : Option (List Char)
  notice : List Char
deriving DecidableEq

/-- Embedding of `copyEmbedCode` (`main.ts` lines 149-157). -/
def copyEmbedCode (src : List Char) (isExternal : Bool)
    (allFiles : List TFile) : CopyOutcome :=
  match generateEmbedCode src isExternal allFiles with
  | some embedCode => ⟨some embedCode, ("Copied: ".toList) ++ embedCode⟩
  | none => ⟨none, "Could not determine image path".toList⟩

/-- Embedding of the classifier at `main.ts` line 62:
`src.startsWith('http://') || src.startsWith('https://')`. -/
def isExternalSrc (src : List Char) : Bool :=
  ("http://".toList).isPrefixOf src || ("https://".toList).isPrefixOf src

/-- DOM element as `captureImageInfo` observes it: a tag name and, for
image elements, the `src` attribute (`none` when absent) and the live
`src` property (always a string, possibly empty). -/
structure DomElement where
  tagName : List Char
  srcAttr : Option (List Char)
  srcProp : List Char
deriving DecidableEq

/-- The `while` walk of `main.ts` lines 43-49, linearised: the chain is
the click target followed by its ancestors, and the walk stops at the
first element whose tag is `IMG`. -/
def findImgElement : List DomElement → Option DomElement
  | [] => none
  | e :: ancestors =>
    if e.tagName == ("IMG".toList) then some e
    else findImgElement ancestors

/-- Line 56 of `main.ts`: `imgElement.getAttribute('src') || imgElement.src`
under JavaScript truthiness (a `null` or empty attribute falls back to
the live property). -/
def imgEffectiveSrc (img : DomElement) : List Char :=
  match img.srcAttr with
  | some a => if a.isEmpty then img.srcProp else a
  | none => img.srcProp

/-- The single state slot `lastClickedImage` of the plugin. -/
structure PendingImageClick where
  src : List Char
  isExternal : Bool
deriving DecidableEq

/-- Embedding of `captureImageInfo` (`main.ts` lines 39-64): the value
stored into the `lastClickedImage` slot for a right-click whose
target-to-root chain is `chain`. -/
def captureImageInfo (chain : List DomElement) : Option PendingImageClick :=
  match findImgElement chain with
  | none => none
  | some imgElement =>
    let src := imgEffectiveSrc imgElement
    if src.isEmpty then none
    else some ⟨src, isExternalSrc src⟩

/-- Menu popup as `injectIntoExistingMenu` observes it: whether the
`data-copy-embed-injected` attribute is set, and how many of our
injected menu items have been appended to it. -/
structure MenuPopup where
  augmented : Bool
  injectedItems : Nat
deriving DecidableEq

/-- Embedding of `injectIntoExistingMenu` (`main.ts` lines 86-144) as a
transformer of the currently open popup: with no pending image click the
function returns early; `document.querySelector` with the
`:not([data-copy-embed-injected])` selector yields nothing when the
popup is already marked; otherwise the popup is marked and one menu item
is appended. -/
def injectIntoExistingMenu (pending : Option PendingImageClick)
    (menu : Option MenuPopup) : Option MenuPopup :=
  match pending with
  | none => menu
  | some _ =>
    match menu with
    | none => menu
    | some m =>
      if m.augmented then menu
      else some ⟨true, m.injectedItems + 1⟩

/-- Number of injected menu items in the (possibly absent) popup. -/
def menuItemCount : Option MenuPopup → Nat
  | none => 0
  | some m => m.injectedItems

/-- Data captured by a menu item when it is created: the destructured
`const { src, isExternal } = this.lastClickedImage` of `main.ts`
lines 72 and 95. -/
structure MenuItemClosure where
  src : List Char
  isExternal : Bool
deriving DecidableEq

/-- Embedding of `addMenuItemIfImage` (`main.ts` lines 69-80): the menu
item added through the structured `Menu` API, holding the values
captured from the slot at creation time (or nothing when the slot is
empty). -/
def addMenuItemIfImage (pending : Option PendingImageClick) : Option MenuItemClosure :=
  match pending with
  | none => none
  | some p => some ⟨p.src, p.isExternal⟩

/-- Click handler of the structured-path menu item (`main.ts` line 78):
it invokes the copy action with the values captured at creation; the
`lastClickedImage` slot as it stands at click time is passed as an
argument here to make explicit that the closure never reads it. -/
def menuItemOnClick (item : MenuItemClosure)
    (_currentSlot : Option PendingImageClick) (allFiles : List TFile) : CopyOutcome :=
  copyEmbedCode item.src item.isExternal allFiles

/-- Values captured by the DOM-injected menu item when it is built
(`main.ts` line 95). -/
def injectedMenuItemClosure (p : PendingImageClick) : MenuItemClosure :=
  ⟨p.src, p.isExternal⟩

/-- Click handler of the DOM-injected menu item (`main.ts`
lines 135-136): like the structured one, it only uses the captured
values, never the live slot. -/
def injectedItemOnClick (item : MenuItemClosure)
    (_currentSlot : Option PendingImageClick) (allFiles : List TFile) : CopyOutcome :=
  copyEmbedCode item.src item.isExternal allFiles

/-- Spec-side reading of the test in §4.6: the string ends in a dot
followed by one or more word characters. -/
def EndsInDotWord (s : List Char) : Prop :=
  ∃ a b, s = a ++ '.' :: b ∧ b ≠ [] ∧ ∀ c ∈ b, isWordChar c = true

/-- Spec-side reading of "the first file whose ... matches": `x` is an
element of `l` satisfying `P`, and everything before it fails `P`. -/
def FirstMatch {α : Type} (l : List α) (P : α → Prop) (x : α) : Prop :=
  ∃ l₁ l₂, l = l₁ ++ x :: l₂ ∧ P x ∧ ∀ y ∈ l₁, ¬ P y

theorem isPrefixOf_true_iff {l₁ l₂ : List Char} :
    l₁.isPrefixOf l₂ = true ↔ l₁ <+: l₂ :=
  List.isPrefixOf_iff_prefix

theorem isSuffixOf_true_iff {l₁ l₂ : List Char} :
    l₁.isSuffixOf l₂ = true ↔ l₁ <:+ l₂ :=
  List.isSuffixOf_iff_suffix

theorem takeWhile_all_stop {α : Type} {p : α → Bool} (l₁ : List α) (x : α) (l₂ : List α)
    (h : ∀ c ∈ l₁, p c = true) (hx : p x = false) :
    (l₁ ++ x :: l₂).takeWhile p = l₁ := by
  induction l₁ with
  | nil => simp [List.takeWhile_cons, hx]
  | cons c l ih =>
    have hc : p c = true := h c (List.mem_cons_self c l)
    simp [List.takeWhile_cons, hc]
    exact ih (fun d hd => h d (List.mem_cons_of_mem c hd))

theorem dropWhile_all_stop {α : Type} {p : α → Bool} (l₁ : List α) (x : α) (l₂ : List α)
    (h : ∀ c ∈ l₁, p c = true) (hx : p x = false) :
    (l₁ ++ x :: l₂).dropWhile p = x :: l₂ := by
  induction l₁ with
  | nil => simp [List.dropWhile_cons, hx]
  | cons c l ih =>
    have hc : p c = true := h c (List.mem_cons_self c l)
    simp [List.dropWhile_cons, hc]
    exact ih (fun d hd => h d (List.mem_cons_of_mem c hd))

theorem find?_eq_some_iff_firstMatch {α : Type} {q : α → Bool} {P : α → Prop}
    (hq : ∀ y, q y = true ↔ P y) (l : List α) (x : α) :
    l.find? q = some x ↔ FirstMatch l P x := by
  rw [List.find?_eq_some]
  unfold FirstMatch
  constructor
  · rintro ⟨hx, l₁, l₂, rfl, hbef⟩
    refine ⟨l₁, l₂, rfl, (hq x).mp hx, ?_⟩
    intro y hy hPy
    have hb := hbef y hy
    rw [Bool.not_eq_true'] at hb
    rw [(hq y).mpr hPy] at hb
    exact Bool.true_eq_false.mp hb
  · rintro ⟨l₁, l₂, rfl, hPx, hbef⟩
    refine ⟨(hq x).mpr hPx, l₁, l₂, rfl, ?_⟩
    intro y hy
    rw [Bool.not_eq_true']
    cases hqy : q y with
    | false => rfl
    | true => exact absurd ((hq y).mp hqy) (hbef y hy)

theorem find?_eq_none_iff_noMatch {α : Type} {q : α → Bool} {P : α → Prop}
    (hq : ∀ y, q y = true ↔ P y) (l : List α) :
    l.find? q = none ↔ ∀ y ∈ l, ¬ P y := by
  rw [List.find?_eq_none]
  constructor
  · intro h y hy hPy
    exact h y hy ((hq y).mpr hPy)
  · intro h y hy hqy
    exact h y hy ((hq y).mp hqy)

/-- Claim C1: for every source string that begins with the plain or the
secure web scheme (and is therefore classified external),
`generateEmbedCode` returns exactly the markdown embed built by
concatenation around the unmodified source — no escaping, no
validation. -/
theorem claim_c1_external_embed (src : List Char) (allFiles : List TFile)
    (h : (("http://".toList) <+: src) ∨ (("https://".toList) <+: src)) :
    generateEmbedCode src (isExternalSrc src) allFiles
      = some (("![](".toList) ++ src ++ (")".toList)) := by
  have hext : isExternalSrc src = true := by
    unfold isExternalSrc
    rcases h with h | h
    · rw [isPrefixOf_true_iff.mpr h]
      simp
    · rw [isPrefixOf_true_iff.mpr h]
      simp
  rw [hext]
  rfl

/-- Witness for C1 at the spec's Example 1. -/
theorem claim_c1_witness :
    ((("http://".toList) <+: ("https://example.com/cat.png".toList))
        ∨ (("https://".toList) <+: ("https://example.com/cat.png".toList)))
    ∧ generateEmbedCode ("https://example.com/cat.png".toList)
        (isExternalSrc ("https://example.com/cat.png".toList)) []
      = some (("![](".toList) ++ ("https://example.com/cat.png".toList) ++ (")".toList)) :=
  ⟨Or.inr ⟨("example.com/cat.png".toList), rfl⟩,
    claim_c1_external_embed ("https://example.com/cat.png".toList) []
      (Or.inr ⟨("example.com/cat.png".toList), rfl⟩)⟩

/-- Claim C2: whenever structured resolution finds a vault file,
`generateEmbedCode` (local branch) wraps that file's short display name
`file.name` — not its full relative path — in wikilink brackets. -/
theorem claim_c2_resolved_uses_short_name (src : List Char) (allFiles : List TFile)
    (f : TFile) (h : resolveImageFile src allFiles = some f) :
    generateEmbedCode src false allFiles
      = some (("![[".toList) ++ f.name ++ ("]]".toList)) := by
  simp [generateEmbedCode, h]

/-- Witness for C2 at the spec's Example 2: an `app://` source resolving
to the vault file with path `Attachments/photo.png`. -/
theorem claim_c2_witness :
    resolveImageFile ("app://abc123/Attachments/photo.png?1700000000".toList)
        [⟨("Attachments/photo.png".toList), ("photo.png".toList)⟩]
      = some ⟨("Attachments/photo.png".toList), ("photo.png".toList)⟩
    ∧ generateEmbedCode ("app://abc123/Attachments/photo.png?1700000000".toList) false
        [⟨("Attachments/photo.png".toList), ("photo.png".toList)⟩]
      = some (("![[".toList) ++ ("photo.png".toList) ++ ("]]".toList)) :=
  ⟨by decide,
    claim_c2_resolved_uses_short_name
      ("app://abc123/Attachments/photo.png?1700000000".toList)
      [⟨("Attachments/photo.png".toList), ("photo.png".toList)⟩]
      ⟨("Attachments/photo.png".toList), ("photo.png".toList)⟩ (by decide)⟩

/-- Claim C5: when structured resolution and filename extraction both
fail on a local source, no embed code is generated, nothing reaches the
clipboard, and the user sees the explicit failure notice. -/
theorem claim_c5_failure_notice (src : List Char) (allFiles : List TFile)
    (h1 : resolveImageFile src allFiles = none)
    (h2 : extractFilenameFromSrc src = none) :
    generateEmbedCode src false allFiles = none
      ∧ copyEmbedCode src false allFiles
        = ⟨none, "Could not determine image path".toList⟩ := by
  have hg : generateEmbedCode src false allFiles = none := by
    simp [generateEmbedCode, h1, h2]
  exact ⟨hg, by simp [copyEmbedCode, hg]⟩

/-- Witness for C5 at the spec's Example 4: a data URL with no
extension-bearing trailing segment. -/
theorem claim_c5_witness :
    resolveImageFile ("data:image/png;base64,abc".toList) [] = none
    ∧ extractFilenameFromSrc ("data:image/png;base64,abc".toList) = none
    ∧ generateEmbedCode ("data:image/png;base64,abc".toList) false [] = none
    ∧ copyEmbedCode ("data:image/png;base64,abc".toList) false []
      = ⟨none, "Could not determine image path".toList⟩ := by
  refine ⟨by decide, by decide, ?_⟩
  have h := claim_c5_failure_notice ("data:image/png;base64,abc".toList) []
    (by decide) (by decide)
  exact h

/-- Claim C6: the source classifier is true exactly on strings beginning
with the plain or the secure web scheme, and `app://` sources are always
classified local. -/
theorem claim_c6_classifier :
    (∀ src : List Char,
        isExternalSrc src = true
          ↔ ((("http://".toList) <+: src) ∨ (("https://".toList) <+: src)))
    ∧ ∀ rest : List Char, isExternalSrc (("app://".toList) ++ rest) = false := by
  constructor
  · intro src
    unfold isExternalSrc
    rw [Bool.or_eq_true, isPrefixOf_true_iff, isPrefixOf_true_iff]
  · intro rest
    rfl

/-- Claim C8: DOM-menu injection is idempotent per popup: a marked popup
is never selected again, marking happens together with the single
append, and any positive number of repeated invocations equals one. -/
theorem claim_c8_injection_idempotent :
    (∀ (pending : Option PendingImageClick) (menu : Option MenuPopup),
        injectIntoExistingMenu pending (injectIntoExistingMenu pending menu)
          = injectIntoExistingMenu pending menu)
    ∧ (∀ (pending : Option PendingImageClick) (menu : Option MenuPopup) (n : Nat),
        (injectIntoExistingMenu pending)^[n + 1] menu
          = injectIntoExistingMenu pending menu)
    ∧ (∀ (pending : Option PendingImageClick) (menu : Option MenuPopup),
        menuItemCount (injectIntoExistingMenu pending menu) ≤ menuItemCount menu + 1)
    ∧ (∀ (pending : Option PendingImageClick) (k : Nat),
        injectIntoExistingMenu pending (some ⟨true, k⟩) = some ⟨true, k⟩)
    ∧ (∀ (p : PendingImageClick) (k : Nat),
        injectIntoExistingMenu (some p) (some ⟨false, k⟩) = some ⟨true, k + 1⟩) := by
  have hidem : ∀ (pending : Option PendingImageClick) (menu : Option MenuPopup),
      injectIntoExistingMenu pending (injectIntoExistingMenu pending menu)
        = injectIntoExistingMenu pending menu := by
    intro pending menu
    cases pending with
    | none => rfl
    | some p =>
      cases menu with
      | none => rfl
      | some m =>
        obtain ⟨aug, k⟩ := m
        cases aug <;> rfl
  refine ⟨hidem, ?_, ?_, ?_, ?_⟩
  · intro pending menu n
    induction n generalizing menu with
    | zero => rfl
    | succ n ih =>
      rw [Function.iterate_succ_apply, ih (injectIntoExistingMenu pending menu),
        hidem]
  · intro pending menu
    cases pending with
    | none => exact Nat.le_succ _
    | some p =>
      cases menu with
      | none => exact Nat.le_succ _
      | some m =>
        obtain ⟨aug, k⟩ := m
        cases aug
        · exact Nat.le_refl _
        · exact Nat.le_succ _
  · intro pending k
    cases pending <;> rfl
  · intro p k
    rfl

/-- Claim C9: for an external classification the embed code always
exists, so `copyEmbedCode` always copies and never shows the failure
notice; failure is reachable only on local sources. -/
theorem claim_c9_external_never_fails (src : List Char) (allFiles : List TFile) :
    copyEmbedCode src true allFiles
      = ⟨some (("![](".toList) ++ src ++ (")".toList)),
          ("Copied: ".toList) ++ (("![](".toList) ++ src ++ (")".toList))⟩
    ∧ (copyEmbedCode src true allFiles).notice
      ≠ ("Could not determine image path".toList) := by
  have h : copyEmbedCode src true allFiles
      = ⟨some (("![](".toList) ++ src ++ (")".toList)),
          ("Copied: ".toList) ++ (("![](".toList) ++ src ++ (")".toList))⟩ := rfl
  refine ⟨h, ?_⟩
  rw [h]
  intro hcontra
  have key : ∀ x : List Char, ((("Copied: ".toList) ++ x))[2]? = some 'p' := by
    intro x
    rfl
  have h2 := congrArg (fun l : List Char => l[2]?) hcontra
  simp only [key] at h2
  exact absurd h2 (by decide)

/-- Claim C10: both menu-item click handlers use only the source string
and flag captured when the item was created; the live slot at click time
is irrelevant, so later right-clicks cannot change what an existing item
copies. -/
theorem claim_c10_click_captures_at_creation :
    (∀ p : PendingImageClick, addMenuItemIfImage (some p) = some ⟨p.src, p.isExternal⟩)
    ∧ (∀ p : PendingImageClick, injectedMenuItemClosure p = ⟨p.src, p.isExternal⟩)
    ∧ (∀ (item : MenuItemClosure) (slot slot' : Option PendingImageClick)
          (allFiles : List TFile),
        menuItemOnClick item slot allFiles = menuItemOnClick item slot' allFiles)
    ∧ (∀ (item : MenuItemClosure) (slot slot' : Option PendingImageClick)
          (allFiles : List TFile),
        injectedItemOnClick item slot allFiles = injectedItemOnClick item slot' allFiles)
    ∧ (∀ (p : PendingImageClick) (slot : Option PendingImageClick)
          (allFiles : List TFile),
        menuItemOnClick ⟨p.src, p.isExternal⟩ slot allFiles
          = copyEmbedCode p.src p.isExternal allFiles)
    ∧ (∀ (p : PendingImageClick) (slot : Option PendingImageClick)
          (allFiles : List TFile),
        injectedItemOnClick (injectedMenuItemClosure p) slot allFiles
          = copyEmbedCode p.src p.isExternal allFiles) :=
  ⟨fun _ => rfl, fun _ => rfl, fun _ _ _ _ => rfl, fun _ _ _ _ => rfl,
    fun _ _ _ => rfl, fun _ _ _ => rfl⟩

/-- Claim C7: `captureImageInfo` walks the click target's ancestor chain
(inclusive) to the first image element; the slot is cleared when no
image is found or when the effective source is empty, and the effective
source is empty exactly when both the attribute form and the
live-property form are empty or absent; otherwise the slot receives the
source together with its classification. -/
theorem claim_c7_captureImageInfo :
    (∀ chain : List DomElement,
        captureImageInfo chain
          = (chain.find? (fun e => e.tagName == ("IMG".toList))).bind
              (fun imgElement =>
                if (imgEffectiveSrc imgElement).isEmpty then none
                else some ⟨imgEffectiveSrc imgElement,
                  isExternalSrc (imgEffectiveSrc imgElement)⟩))
    ∧ ∀ img : DomElement,
        (imgEffectiveSrc img).isEmpty = true
          ↔ ((img.srcAttr = none ∨ img.srcAttr = some []) ∧ img.srcProp = []) := by
  constructor
  · intro chain
    have hfind : findImgElement chain
        = chain.find? (fun e => e.tagName == ("IMG".toList)) := by
      induction chain with
      | nil => rfl
      | cons e rest ih =>
        rw [show findImgElement (e :: rest)
            = if (e.tagName == ("IMG".toList)) = true then some e
              else findImgElement rest from rfl,
          List.find?_cons]
        cases hb : (e.tagName == ("IMG".toList)) with
        | true => rw [if_pos rfl]
        | false =>
          rw [if_neg (by decide)]
          exact ih
    unfold captureImageInfo
    rw [hfind]
    cases hfe : chain.find? (fun e => e.tagName == ("IMG".toList)) with
    | none => rfl
    | some img => rfl
  · intro img
    cases h : img.srcAttr with
    | none => simp [imgEffectiveSrc, h, List.isEmpty_iff]
    | some a =>
      by_cases ha : a = []
      · subst ha
        simp [imgEffectiveSrc, h, List.isEmpty_iff]
      · simp [imgEffectiveSrc, h, List.isEmpty_iff, ha]

theorem hasWordExtension_iff {s : List Char} :
    hasWordExtension s = true ↔ EndsInDotWord s := by
  constructor
  · intro h
    simp only [hasWordExtension] at h
    rw [Bool.and_eq_true] at h
    obtain ⟨h1, h2⟩ := h
    rw [Bool.not_eq_true'] at h1
    have hw : s.reverse.takeWhile isWordChar ≠ [] := by
      intro hnil
      rw [hnil] at h1
      simp at h1
    have hd : (s.reverse.dropWhile isWordChar).head? = some '.' := beq_iff_eq.mp h2
    obtain ⟨t, ht⟩ : ∃ t, s.reverse.dropWhile isWordChar = '.' :: t := by
      cases hc : s.reverse.dropWhile isWordChar with
      | nil => rw [hc] at hd; exact absurd hd (by simp)
      | cons c t =>
        rw [hc] at hd
        simp only [List.head?_cons, Option.some.injEq] at hd
        exact ⟨t, by rw [hd]⟩
    have hsplit : s.reverse = s.reverse.takeWhile isWordChar ++ '.' :: t := by
      rw [← ht]
      exact (List.takeWhile_append_dropWhile _ _).symm
    have hs : s = (s.reverse.takeWhile isWordChar ++ '.' :: t).reverse := by
      rw [← hsplit, List.reverse_reverse]
    refine ⟨t.reverse, (s.reverse.takeWhile isWordChar).reverse, ?_, ?_, ?_⟩
    · conv_lhs => rw [hs]
      rw [List.reverse_append, List.reverse_cons, List.append_assoc]
      rfl
    · rw [Ne, List.reverse_eq_nil_iff]
      exact hw
    · intro c hc
      exact List.mem_takeWhile_imp (List.mem_reverse.mp hc)
  · rintro ⟨a, b, rfl, hb, hword⟩
    simp only [hasWordExtension]
    have hrev : (a ++ '.' :: b).reverse = b.reverse ++ '.' :: a.reverse := by
      rw [List.reverse_append, List.reverse_cons, List.append_assoc]
      rfl
    have hall : ∀ c ∈ b.reverse, isWordChar c = true :=
      fun c hc => hword c (List.mem_reverse.mp hc)
    have hdot : isWordChar '.' = false := rfl
    rw [hrev, takeWhile_all_stop _ _ _ hall hdot, dropWhile_all_stop _ _ _ hall hdot]
    simp [List.isEmpty_iff, List.reverse_eq_nil_iff, hb]

theorem fallbackMatchAt_tokenOk {l m : List Char}
    (h : fallbackMatchAt l = some m) : fallbackTokenOk m = true := by
  simp only [fallbackMatchAt] at h
  split at h
  next hc =>
    injection h with h'
    subst h'
    exact (Bool.and_eq_true _ _).mp hc |>.1
  next => cases h

theorem jsFallbackMatch_tokenOk : ∀ {l m : List Char},
    jsFallbackMatch l = some m → fallbackTokenOk m = true := by
  intro l
  induction l with
  | nil =>
    intro m h
    simp [jsFallbackMatch] at h
  | cons c rest ih =>
    intro m h
    simp only [jsFallbackMatch] at h
    cases hat : fallbackMatchAt (c :: rest) with
    | none =>
      rw [hat] at h
      exact ih h
    | some m' =>
      rw [hat] at h
      have h2 : some m' = some m := h
      injection h2 with h3
      subst h3
      exact fallbackMatchAt_tokenOk hat

theorem jsFallbackMatch_ne_nil {l m : List Char}
    (h : jsFallbackMatch l = some m) : m ≠ [] := by
  intro hnil
  subst hnil
  have hk := jsFallbackMatch_tokenOk h
  exact absurd hk (by decide)

theorem extractFilenameFromSrc_ne_nil {src n : List Char}
    (h : extractFilenameFromSrc src = some n) : n ≠ [] := by
  cases hdec : decodeURIComponent src with
  | none =>
    simp only [extractFilenameFromSrc, hdec] at h
    exact jsFallbackMatch_ne_nil h
  | some d =>
    simp only [extractFilenameFromSrc, hdec] at h
    cases hlast : ((d.takeWhile (· ≠ '?')).splitOn '/').getLast? with
    | none => rw [hlast] at h; cases h
    | some ls =>
      rw [hlast] at h
      have h' : (if !ls.isEmpty && hasWordExtension ls then some ls else none)
          = some n := h
      split at h'
      next hc =>
        injection h' with h''
        subst h''
        intro hnil
        subst hnil
        exact absurd hc (by decide)
      next => cases h'

/-- Claim C4: `extractFilenameFromSrc` URL-decodes, strips from the
first question mark, splits on path separators (the slash), takes the
final segment and returns it exactly when it ends in a dot followed by
one or more word characters; when decoding throws it returns the single
fallback-regex match on the raw string; in all other cases nothing. -/
theorem claim_c4_extractFilename_characterization :
    ∀ src out : List Char,
      extractFilenameFromSrc src = some out
        ↔ ((∃ d, decodeURIComponent src = some d
              ∧ ((d.takeWhile (· ≠ '?')).splitOn '/').getLast? = some out
              ∧ EndsInDotWord out)
           ∨ (decodeURIComponent src = none ∧ jsFallbackMatch src = some out)) := by
  intro src out
  cases hdec : decodeURIComponent src with
  | none =>
    constructor
    · intro h
      simp only [extractFilenameFromSrc, hdec] at h
      exact Or.inr ⟨rfl, h⟩
    · rintro (⟨d, hd, _, _⟩ | ⟨_, h⟩)
      · cases hd
      · simp only [extractFilenameFromSrc, hdec]
        exact h
  | some d =>
    constructor
    · intro h
      simp only [extractFilenameFromSrc, hdec] at h
      cases hlast : ((d.takeWhile (· ≠ '?')).splitOn '/').getLast? with
      | none => rw [hlast] at h; cases h
      | some ls =>
        rw [hlast] at h
        have h' : (if !ls.isEmpty && hasWordExtension ls then some ls else none)
            = some out := h
        split at h'
        next hc =>
          injection h' with h''
          subst h''
          exact Or.inl ⟨d, rfl, hlast,
            hasWordExtension_iff.mp ((Bool.and_eq_true _ _).mp hc).2⟩
        next => cases h'
    · rintro (⟨d', hd', hlast', hend⟩ | ⟨hnone, _⟩)
      · injection hd' with hdd
        subst hdd
        have hwe : hasWordExtension out = true := hasWordExtension_iff.mpr hend
        have hne : out ≠ [] := by
          intro h0
          rw [h0] at hwe
          exact absurd hwe (by decide)
        have hemp : out.isEmpty = false := by
          cases he : out.isEmpty with
          | false => rfl
          | true => exact absurd (List.isEmpty_iff.mp he) hne
        simp only [extractFilenameFromSrc, hdec, hlast']
        simp [hemp, hwe]
      · cases hnone

/-- Claim C3: `resolveImageFile` computes a candidate path by URL-decoding
(raw string on failure), stripping the scheme and authority of an
internal `app://` URL, and stripping the trailing query string; it then
returns the first vault file whose full relative path the candidate
equals or ends with, else the first vault file whose short name equals
the extracted filename, else nothing. -/
theorem claim_c3_resolveImageFile_two_pass :
    ∀ (src : List Char) (allFiles : List TFile),
      (∀ f : TFile,
        resolveImageFile src allFiles = some f
          ↔ (FirstMatch allFiles
                (fun g => stripQuery (stripAppUrl (decodeOrRaw src)) = g.path
                    ∨ g.path <:+ stripQuery (stripAppUrl (decodeOrRaw src))) f
              ∨ ((∀ g ∈ allFiles,
                    ¬(stripQuery (stripAppUrl (decodeOrRaw src)) = g.path
                        ∨ g.path <:+ stripQuery (stripAppUrl (decodeOrRaw src))))
                  ∧ ∃ n, extractFilenameFromSrc src = some n
                      ∧ FirstMatch allFiles (fun g => g.name = n) f)))
      ∧ (resolveImageFile src allFiles = none
          ↔ ((∀ g ∈ allFiles,
                ¬(stripQuery (stripAppUrl (decodeOrRaw src)) = g.path
                    ∨ g.path <:+ stripQuery (stripAppUrl (decodeOrRaw src))))
              ∧ ∀ n, extractFilenameFromSrc src = some n
                  → ∀ g ∈ allFiles, g.name ≠ n)) := by
  intro src allFiles
  have hq1 : ∀ g : TFile,
      (g.path.isSuffixOf (stripQuery (stripAppUrl (decodeOrRaw src)))
          || g.path == stripQuery (stripAppUrl (decodeOrRaw src))) = true
        ↔ (stripQuery (stripAppUrl (decodeOrRaw src)) = g.path
            ∨ g.path <:+ stripQuery (stripAppUrl (decodeOrRaw src))) := by
    intro g
    rw [Bool.or_eq_true, isSuffixOf_true_iff, beq_iff_eq]
    constructor
    · rintro (h | h)
      · exact Or.inr h
      · exact Or.inl h.symm
    · rintro (h | h)
      · exact Or.inr h.symm
      · exact Or.inl h
  have hq2 : ∀ n : List Char, ∀ g : TFile, (g.name == n) = true ↔ g.name = n := by
    intro n g
    exact beq_iff_eq
  have hmem : ∀ (f : TFile) (P : TFile → Prop), FirstMatch allFiles P f
      → f ∈ allFiles ∧ P f := by
    rintro f P ⟨l₁, l₂, hsplit, hPf, _⟩
    refine ⟨?_, hPf⟩
    rw [hsplit]
    exact List.mem_append_right _ (List.mem_cons_self _ _)
  cases hfind : allFiles.find? (fun file =>
      file.path.isSuffixOf (stripQuery (stripAppUrl (decodeOrRaw src)))
        || file.path == stripQuery (stripAppUrl (decodeOrRaw src))) with
  | some g =>
    have hres : resolveImageFile src allFiles = some g := by
      simp only [resolveImageFile]
      rw [hfind]
    have hFM : FirstMatch allFiles
        (fun g => stripQuery (stripAppUrl (decodeOrRaw src)) = g.path
          ∨ g.path <:+ stripQuery (stripAppUrl (decodeOrRaw src))) g :=
      (find?_eq_some_iff_firstMatch hq1 allFiles g).mp hfind
    obtain ⟨hg_mem, hP1g⟩ := hmem g _ hFM
    constructor
    · intro f
      rw [hres]
      constructor
      · intro h
        injection h with h'
        subst h'
        exact Or.inl hFM
      · rintro (hfm | ⟨hno, _, _, _⟩)
        · have hthis := (find?_eq_some_iff_firstMatch hq1 allFiles f).mpr hfm
          rw [hfind] at hthis
          exact hthis
        · exact absurd hP1g (hno g hg_mem)
    · rw [hres]
      constructor
      · intro h
        cases h
      · rintro ⟨hno, _⟩
        exact absurd hP1g (hno g hg_mem)
  | none =>
    have hnoP1 : ∀ g ∈ allFiles,
        ¬(stripQuery (stripAppUrl (decodeOrRaw src)) = g.path
            ∨ g.path <:+ stripQuery (stripAppUrl (decodeOrRaw src))) :=
      (find?_eq_none_iff_noMatch hq1 allFiles).mp hfind
    cases hex : extractFilenameFromSrc src with
    | none =>
      have hres : resolveImageFile src allFiles = none := by
        simp only [resolveImageFile]
        rw [hfind, hex]
      constructor
      · intro f
        rw [hres]
        constructor
        · intro h
          cases h
        · rintro (hfm | ⟨_, n, hn, _⟩)
          · exact absurd (hmem f _ hfm).2 (hnoP1 f (hmem f _ hfm).1)
          · cases hn
      · rw [hres]
        constructor
        · intro _
          refine ⟨hnoP1, ?_⟩
          intro n hn
          cases hn
        · intro _
          rfl
    | some n =>
      have hnne : n ≠ [] := extractFilenameFromSrc_ne_nil hex
      have hemp : n.isEmpty = false := by
        cases he : n.isEmpty with
        | false => rfl
        | true => exact absurd (List.isEmpty_iff.mp he) hnne
      have hres : resolveImageFile src allFiles
          = allFiles.find? (fun file => file.name == n) := by
        simp only [resolveImageFile]
        rw [hfind, hex]
        simp [hemp]
      cases hfind2 : allFiles.find? (fun file => file.name == n) with
      | some f' =>
        have hFM2 : FirstMatch allFiles (fun g => g.name = n) f' :=
          (find?_eq_some_iff_firstMatch (hq2 n) allFiles f').mp hfind2
        constructor
        · intro f
          rw [hres, hfind2]
          constructor
          · intro h
            injection h with h'
            subst h'
            exact Or.inr ⟨hnoP1, n, rfl, hFM2⟩
          · rintro (hfm | ⟨_, n', hn', hfm⟩)
            · exact absurd (hmem f _ hfm).2 (hnoP1 f (hmem f _ hfm).1)
            · injection hn' with hnn
              subst hnn
              have hthis := (find?_eq_some_iff_firstMatch (hq2 n) allFiles f).mpr hfm
              rw [hfind2] at hthis
              exact hthis
        · rw [hres, hfind2]
          constructor
          · intro h
            cases h
          · rintro ⟨_, hnames⟩
            exact absurd (hmem f' _ hFM2).2 (hnames n rfl f' (hmem f' _ hFM2).1)
      | none =>
        have hnoP2 : ∀ g ∈ allFiles, ¬(g.name = n) :=
          (find?_eq_none_iff_noMatch (hq2 n) allFiles).mp hfind2
        constructor
        · intro f
          rw [hres, hfind2]
          constructor
          · intro h
            cases h
          · rintro (hfm | ⟨_, n', hn', hfm⟩)
            · exact absurd (hmem f _ hfm).2 (hnoP1 f (hmem f _ hfm).1)
            · injection hn' with hnn
              subst hnn
              exact absurd (hmem f _ hfm).2 (hnoP2 f (hmem f _ hfm).1)
        · rw [hres, hfind2]
          constructor
          · intro _
            refine ⟨hnoP1, ?_⟩
            intro n' hn' g hg
            injection hn' with hnn
            subst hnn
            exact hnoP2 g hg
          · intro _
            rfl
